import Mathlib

/-!
Shallow embedding of `src/ArgueDashboardReader.sol` (contract
`ArgueDashboardReader`, Solidity ^0.8.20).

Modelling choices:
- Addresses are abstract: `Addr := Nat` (only equality of addresses matters
  to the reader).
- On-chain state visible to the reader is a total function
  `Chain : Addr → DebateData` giving, for each debate address, the data the
  reader extracts from `IDebate.getInfo()`, `status()`,
  `getArgumentsOnSideA()` and `getArgumentsOnSideB()`.  Fields of
  `getInfo()` that the reader discards with `,,` (the statement/description
  strings, `creationDate`, `isResolved`, `isSideAWinner`, `winnerReasoning`,
  content-byte counters) are not modelled; the reader never looks at them.
- `uint256` values are modelled as `Nat` and `int256` as `Int`.  Solidity
  0.8 arithmetic is checked (it reverts on overflow rather than wrapping),
  so for every call that returns, `Nat` sums agree with the EVM sums.
- The one place where the contract can revert on in-range inputs is the
  unchecked write `seen[seenCount++]` in `getAggregateStats`: `seen` is a
  memory array of fixed length `debates.length * 20`, and a memory-array
  store at an index `≥` its length triggers a bounds-check revert
  (Panic 0x32).  `getAggregateStats` is therefore modelled with `Option`,
  `none` standing for that revert.  All other operations never index out of
  bounds (their buffers are sized to their caps) and are total.
-/

/-- An address: abstract, equality-only. -/
abbrev Addr : Type := Nat

/-- Solidity `IDebate.Argument`: author, content, timestamp, staked amount. -/
structure Argument where
  author : Addr
  content : String
  timestamp : Nat
  amount : Nat
  deriving DecidableEq, Repr, Inhabited

/-- The per-debate data the reader extracts from the `IDebate` interface:
the bound outputs of `getInfo()`, the value of `status()`, and the two
argument lists. -/
structure DebateData where
  creator : Addr
  endDate : Nat
  status : Nat
  totalLockedA : Nat
  totalUnlockedA : Nat
  totalLockedB : Nat
  totalUnlockedB : Nat
  totalBounty : Nat
  argsA : List Argument
  argsB : List Argument
  deriving DecidableEq, Repr, Inhabited

/-- The chain state seen by the reader: each address resolves to debate
data.  (Calling a non-debate address would revert; such inputs are outside
this model, matching the spec's "malformed input propagates as an upstream
read failure".) -/
abbrev Chain : Type := Addr → DebateData

/-- Solidity `struct DebateBasicInfo` of the contract. -/
structure DebateBasicInfo where
  debateAddress : Addr
  creator : Addr
  endDate : Nat
  status : Nat
  totalSideA : Nat
  totalSideB : Nat
  totalBounty : Nat
  argumentCountA : Nat
  argumentCountB : Nat
  deriving DecidableEq, Repr, Inhabited

/-- The factory's `getUserStats` tuple. -/
structure UserStats where
  totalWinnings : Nat
  totalBets : Nat
  debatesParticipated : Nat
  debatesWon : Nat
  totalClaimed : Nat
  netProfit : Int
  winRate : Nat
  deriving DecidableEq, Repr, Inhabited

/-- The factory's per-user ledger, as seen by the reader. -/
abbrev Factory : Type := Addr → UserStats

/-- Solidity `struct AgentStats` of the contract (the reader drops `totalClaimed`). -/
structure AgentStats where
  agent : Addr
  totalWinnings : Nat
  totalBets : Nat
  debatesParticipated : Nat
  debatesWon : Nat
  netProfit : Int
  winRate : Nat
  deriving DecidableEq, Repr, Inhabited

/-- Solidity `struct ParticipantInfo` of the contract. -/
structure ParticipantInfo where
  participant : Addr
  totalArgumentsWritten : Nat
  totalAmountBet : Nat
  deriving DecidableEq, Repr, Inhabited

/-- Function `_getDebateBasicInfo`: one summary record assembled from the underlying
debate contract's reads; `totalSideA`/`totalSideB` are the lock/unlock
sums. -/
def getDebateBasicInfo (chain : Chain) (debateAddr : Addr) : DebateBasicInfo :=
  let d := chain debateAddr
  { debateAddress := debateAddr
    creator := d.creator
    endDate := d.endDate
    status := d.status
    totalSideA := d.totalLockedA + d.totalUnlockedA
    totalSideB := d.totalLockedB + d.totalUnlockedB
    totalBounty := d.totalBounty
    argumentCountA := d.argsA.length
    argumentCountB := d.argsB.length }

/-- Function `getDebateBasicInfoBatch`: the `for` loop filling `infos[i]` for each
input index in order. -/
def getDebateBasicInfoBatch (chain : Chain) : List Addr → List DebateBasicInfo
  | [] => []
  | a :: rest => getDebateBasicInfo chain a :: getDebateBasicInfoBatch chain rest

/-- The row built for one agent inside `getBatchAgentStats` (one factory
`getUserStats` lookup; `totalClaimed` is dropped). -/
def mkAgentStats (factory : Factory) (a : Addr) : AgentStats :=
  let u := factory a
  { agent := a
    totalWinnings := u.totalWinnings
    totalBets := u.totalBets
    debatesParticipated := u.debatesParticipated
    debatesWon := u.debatesWon
    netProfit := u.netProfit
    winRate := u.winRate }

/-- Function `getBatchAgentStats`: the `for` loop filling `agentStats[i]`. -/
def getBatchAgentStats (factory : Factory) : List Addr → List AgentStats
  | [] => []
  | a :: rest => mkAgentStats factory a :: getBatchAgentStats factory rest

/-- Helper `_seen(arr, len, addr)`: linear scan of the filled part of the dedup
buffer (here the filled part is the whole list). -/
def addrSeen : List Addr → Addr → Bool
  | [], _ => false
  | b :: rest, a => if b = a then true else addrSeen rest a

/-- Inner loop of `getArgumentAuthors` over one side's argument list:
`for (j...; j < args.length && count < maxResults; j++)` with the
`_seen`-guarded append `temp[count++] = author`. -/
def authorsAddSide (maxResults : Nat) : List Argument → List Addr → List Addr
  | [], acc => acc
  | arg :: rest, acc =>
    if acc.length < maxResults then
      if addrSeen acc arg.author then authorsAddSide maxResults rest acc
      else authorsAddSide maxResults rest (acc ++ [arg.author])
    else acc

/-- Outer loop of `getArgumentAuthors`:
`for (i...; i < debates.length && count < maxResults; i++)`, reading side A
then side B of each debate. -/
def authorsLoop (chain : Chain) (maxResults : Nat) : List Addr → List Addr → List Addr
  | [], acc => acc
  | dAddr :: rest, acc =>
    if acc.length < maxResults then
      let d := chain dAddr
      authorsLoop chain maxResults rest
        (authorsAddSide maxResults d.argsB (authorsAddSide maxResults d.argsA acc))
    else acc

/-- Function `getArgumentAuthors(debates, maxResults)`. -/
def getArgumentAuthors (chain : Chain) (debates : List Addr) (maxResults : Nat) : List Addr :=
  authorsLoop chain maxResults debates []

/-- Helper `_findIdx(arr, len, addr)`: first index of `addr` in the filled roster,
or the roster length when absent. -/
def partIdx : List ParticipantInfo → Addr → Nat
  | [], _ => 0
  | p :: rest, a => if p.participant = a then 0 else partIdx rest a + 1

/-- The update `counts[idx]++; amounts[idx] += amount` at roster index `idx`. -/
def bumpAt : List ParticipantInfo → Nat → Nat → List ParticipantInfo
  | [], _, _ => []
  | p :: rest, 0, amt =>
    { p with totalArgumentsWritten := p.totalArgumentsWritten + 1
             totalAmountBet := p.totalAmountBet + amt } :: rest
  | p :: rest, i + 1, amt => p :: bumpAt rest i amt

/-- Helper `_processArgs`: `for (j...; j < args.length && count < max; j++)`; new
authors are admitted while `count < max`, and the indexed slot is bumped.
The roster is modelled as the filled prefix of the three parallel arrays,
zipped into `ParticipantInfo` records. -/
def processArgs (max : Nat) : List Argument → List ParticipantInfo → List ParticipantInfo
  | [], acc => acc
  | arg :: rest, acc =>
    if acc.length < max then
      let idx := partIdx acc arg.author
      let acc2 := if idx = acc.length then acc ++ [⟨arg.author, 0, 0⟩] else acc
      processArgs max rest (bumpAt acc2 idx arg.amount)
    else acc

/-- Outer loop of `getParticipantDetails`: iterates over every input debate
(no early exit), side A then side B. -/
def participantLoop (chain : Chain) (maxResults : Nat) :
    List Addr → List ParticipantInfo → List ParticipantInfo
  | [], acc => acc
  | dAddr :: rest, acc =>
    let d := chain dAddr
    participantLoop chain maxResults rest
      (processArgs maxResults d.argsB (processArgs maxResults d.argsA acc))

/-- Function `getParticipantDetails(debates, maxResults)`. -/
def getParticipantDetails (chain : Chain) (debates : List Addr) (maxResults : Nat) :
    List ParticipantInfo :=
  participantLoop chain maxResults debates []

/-- Loop of `getDebateCreators`: one `getInfo()` read per debate, `_seen`
guarded append.  The buffer holds `debates.length` slots, which the count
can never exceed, so no bounds issue arises. -/
def creatorsLoop (chain : Chain) : List Addr → List Addr → List Addr
  | [], acc => acc
  | dAddr :: rest, acc =>
    let c := (chain dAddr).creator
    creatorsLoop chain rest (if addrSeen acc c then acc else acc ++ [c])

/-- Function `getDebateCreators(debates)`. -/
def getDebateCreators (chain : Chain) (debates : List Addr) : List Addr :=
  creatorsLoop chain debates []

/-- The named return tuple of `getAggregateStats`. -/
structure AggregateStats where
  totalVolume : Nat
  totalBounties : Nat
  totalArguments : Nat
  uniqueParticipants : Nat
  deriving DecidableEq, Repr, Inhabited

/-- Dedup loop of `getAggregateStats` over one argument list: the store
`seen[seenCount++] = author` has no guard, so when `seenCount` has reached
the buffer's fixed length `cap` and a new author appears, the memory-array
bounds check reverts — modelled as `none`. -/
def aggAddAuthors (cap : Nat) : List Argument → List Addr → Option (List Addr)
  | [], seen => some seen
  | arg :: rest, seen =>
    if addrSeen seen arg.author then aggAddAuthors cap rest seen
    else if seen.length < cap then aggAddAuthors cap rest (seen ++ [arg.author])
    else none

/-- Running totals of `getAggregateStats` plus the filled part of the
`seen` buffer. -/
structure AggState where
  totalVolume : Nat
  totalBounties : Nat
  totalArguments : Nat
  seen : List Addr
  deriving DecidableEq, Repr, Inhabited

/-- Main loop of `getAggregateStats`: per debate, add the four-way volume
sum and bounty, add both argument counts, then run the dedup loops on side
A and side B. -/
def aggLoop (chain : Chain) (cap : Nat) : List Addr → AggState → Option AggState
  | [], st => some st
  | dAddr :: rest, st =>
    let d := chain dAddr
    let st' : AggState :=
      { totalVolume := st.totalVolume +
          (d.totalLockedA + d.totalUnlockedA + d.totalLockedB + d.totalUnlockedB)
        totalBounties := st.totalBounties + d.totalBounty
        totalArguments := st.totalArguments + (d.argsA.length + d.argsB.length)
        seen := st.seen }
    match aggAddAuthors cap d.argsA st'.seen with
    | none => none
    | some s1 =>
      match aggAddAuthors cap d.argsB s1 with
      | none => none
      | some s2 => aggLoop chain cap rest { st' with seen := s2 }

/-- Function `getAggregateStats(debates)`: the `seen` buffer is allocated with fixed
length `debates.length * 20`; `none` is the bounds-check revert. -/
def getAggregateStats (chain : Chain) (debates : List Addr) : Option AggregateStats :=
  match aggLoop chain (debates.length * 20) debates ⟨0, 0, 0, []⟩ with
  | none => none
  | some st => some ⟨st.totalVolume, st.totalBounties, st.totalArguments, st.seen.length⟩

/-- Reference first-seen dedup step: append an address unless present. -/
def insertSeen (acc : List Addr) (a : Addr) : List Addr :=
  if addrSeen acc a then acc else acc ++ [a]

/-- Reference (uncapped) first-seen dedup of a scan sequence. -/
def firstSeenDedup (l : List Addr) : List Addr :=
  l.foldl insertSeen []

/-- The full author scan sequence of a debate list: debates in input order,
side A before side B, arguments in list order. -/
def allAuthors (chain : Chain) (debates : List Addr) : List Addr :=
  debates.flatMap (fun a => ((chain a).argsA ++ (chain a).argsB).map Argument.author)

/-- Total number of arguments across a debate list (both sides). -/
def totalArgCount (chain : Chain) (debates : List Addr) : Nat :=
  (allAuthors chain debates).length

/-- Capped first-seen insertion: the loop shape
`while (more input && count < max)` with a `_seen`-guarded append. -/
def cappedIns (max : Nat) : List Addr → List Addr → List Addr
  | [], acc => acc
  | a :: rest, acc =>
    if acc.length < max then cappedIns max rest (insertSeen acc a) else acc

/-- Per-debate four-way pool sum, totalled over the input list. -/
def volumeOf (chain : Chain) (ds : List Addr) : Nat :=
  (ds.map (fun a => (chain a).totalLockedA + (chain a).totalUnlockedA +
    (chain a).totalLockedB + (chain a).totalUnlockedB)).sum

/-- Bounty sum over the input list. -/
def bountiesOf (chain : Chain) (ds : List Addr) : Nat :=
  (ds.map (fun a => (chain a).totalBounty)).sum

/-- Argument-count sum (both sides) over the input list. -/
def argCountOf (chain : Chain) (ds : List Addr) : Nat :=
  (ds.map (fun a => (chain a).argsA.length + (chain a).argsB.length)).sum

/-! ### Concrete inputs used by witnesses and counterexamples -/

/-- An argument with the given author and stake. -/
def mkArg (a : Addr) (amt : Nat) : Argument :=
  { author := a, content := "", timestamp := 0, amount := amt }

/-- A debate whose side A has arguments by `170` (amount 5) and `187`
(amount 3) and whose side B has one argument by `170` (amount 2): the
spec's `DebateX` with Alice = `170` (0xAA..) and Bob = `187` (0xBB..). -/
def debateX : DebateData :=
  { creator := 9, endDate := 0, status := 0
    totalLockedA := 0, totalUnlockedA := 0, totalLockedB := 0, totalUnlockedB := 0
    totalBounty := 0, argsA := [mkArg 170 5, mkArg 187 3], argsB := [mkArg 170 2] }

/-- Chain state resolving every address to `debateX`. -/
def chainX : Chain := fun _ => debateX

/-- A debate whose side A holds two arguments by the same author `170`
(amounts 5 and 2). -/
def debateRepeat : DebateData :=
  { debateX with argsA := [mkArg 170 5, mkArg 170 2], argsB := [] }

/-- Chain state resolving every address to `debateRepeat`. -/
def chainRepeat : Chain := fun _ => debateRepeat

/-- A debate with 21 distinct authors on side A: one more than the
`1 * 20`-slot dedup buffer of a single-debate `getAggregateStats` call. -/
def debate21 : DebateData :=
  { debateX with argsA := (List.range 21).map (fun i => mkArg i 1), argsB := [] }

/-- Chain state resolving every address to `debate21`. -/
def chain21 : Chain := fun _ => debate21

/-- Debate `D1` of the spec's `argumentAuthors` scenario: side A's first argument
is authored by `204` (0xCC..). -/
def debateCC : DebateData :=
  { debateX with argsA := [mkArg 204 1, mkArg 7 1], argsB := [mkArg 8 1] }

/-- Chain with `debateCC` at address 1 and `debate21` elsewhere (so a scan
that touched address 2 would be visible in the output). -/
def chainCC : Chain := fun a => if a = 1 then debateCC else debate21

/-- Chain whose debates at addresses 1 and 3 share creator `170` while
address 2 has creator `187`. -/
def chainCreators : Chain := fun a =>
  if a = 2 then { debateX with creator := 187 } else { debateX with creator := 170 }

/-- A debate with nonzero, pairwise-distinct pool sub-balances. -/
def debatePools : DebateData :=
  { debateX with creator := 12, totalLockedA := 1, totalUnlockedA := 2
                 totalLockedB := 3, totalUnlockedB := 4, totalBounty := 7 }

/-- Chain state resolving every address to `debatePools`. -/
def chainPools : Chain := fun _ => debatePools

/-- A concrete factory ledger whose rows depend on the queried address. -/
def factoryW : Factory := fun a =>
  { totalWinnings := a + 1, totalBets := a + 2, debatesParticipated := a
    debatesWon := 1, totalClaimed := a + 3, netProfit := (a : Int) - 2, winRate := 5000 }

/-! ### Basic facts about the dedup primitives -/

@[simp] theorem addrSeen_iff (l : List Addr) (a : Addr) : addrSeen l a = true ↔ a ∈ l := by
  induction l with
  | nil => simp [addrSeen]
  | cons b rest ih =>
    by_cases h : b = a
    · simp [addrSeen, h]
    · simp [addrSeen, h, ih, Ne.symm h]

theorem insertSeen_of_mem {acc : List Addr} {a : Addr} (h : a ∈ acc) :
    insertSeen acc a = acc := by
  simp [insertSeen, h]

theorem insertSeen_of_not_mem {acc : List Addr} {a : Addr} (h : a ∉ acc) :
    insertSeen acc a = acc ++ [a] := by
  simp [insertSeen, h]

theorem exists_insertSeen_append (acc : List Addr) (a : Addr) :
    ∃ t, insertSeen acc a = acc ++ t := by
  by_cases h : a ∈ acc
  · exact ⟨[], by simp [insertSeen_of_mem h]⟩
  · exact ⟨[a], insertSeen_of_not_mem h⟩

theorem length_insertSeen_le (acc : List Addr) (a : Addr) :
    (insertSeen acc a).length ≤ acc.length + 1 := by
  by_cases h : a ∈ acc
  · simp [insertSeen_of_mem h]
  · simp [insertSeen_of_not_mem h]

theorem length_le_insertSeen (acc : List Addr) (a : Addr) :
    acc.length ≤ (insertSeen acc a).length := by
  by_cases h : a ∈ acc
  · simp [insertSeen_of_mem h]
  · simp [insertSeen_of_not_mem h]

theorem nodup_insertSeen {acc : List Addr} (h : acc.Nodup) (a : Addr) :
    (insertSeen acc a).Nodup := by
  by_cases hm : a ∈ acc
  · simpa [insertSeen_of_mem hm] using h
  · rw [insertSeen_of_not_mem hm]
    simp [List.nodup_append, h, hm]

theorem exists_foldl_insertSeen_append (l : List Addr) (acc : List Addr) :
    ∃ t, l.foldl insertSeen acc = acc ++ t := by
  induction l generalizing acc with
  | nil => exact ⟨[], by simp⟩
  | cons a rest ih =>
    obtain ⟨t₁, ht₁⟩ := exists_insertSeen_append acc a
    obtain ⟨t₂, ht₂⟩ := ih (insertSeen acc a)
    refine ⟨t₁ ++ t₂, ?_⟩
    rw [List.foldl_cons, ht₂, ht₁, List.append_assoc]

theorem length_foldl_insertSeen_le (l : List Addr) (acc : List Addr) :
    (l.foldl insertSeen acc).length ≤ acc.length + l.length := by
  induction l generalizing acc with
  | nil => simp
  | cons a rest ih =>
    calc ((a :: rest).foldl insertSeen acc).length
        = (rest.foldl insertSeen (insertSeen acc a)).length := by simp
      _ ≤ (insertSeen acc a).length + rest.length := ih _
      _ ≤ (acc.length + 1) + rest.length := by
          exact Nat.add_le_add_right (length_insertSeen_le acc a) _
      _ = acc.length + (a :: rest).length := by simp; omega

theorem length_le_foldl_insertSeen (l : List Addr) (acc : List Addr) :
    acc.length ≤ (l.foldl insertSeen acc).length := by
  obtain ⟨t, ht⟩ := exists_foldl_insertSeen_append l acc
  simp [ht]

theorem nodup_foldl_insertSeen (l : List Addr) {acc : List Addr} (h : acc.Nodup) :
    (l.foldl insertSeen acc).Nodup := by
  induction l generalizing acc with
  | nil => simpa
  | cons a rest ih => simpa using ih (nodup_insertSeen h a)

theorem nodup_firstSeenDedup (l : List Addr) : (firstSeenDedup l).Nodup :=
  nodup_foldl_insertSeen l List.nodup_nil

/-! ### The capped insertion loop shared by `getArgumentAuthors` and the
admission logic of `getParticipantDetails`: insert while the buffer has
fewer than `max` entries, then stop scanning. -/

theorem cappedIns_of_full {max : Nat} {acc : List Addr} (h : ¬ acc.length < max)
    (l : List Addr) : cappedIns max l acc = acc := by
  cases l with
  | nil => rfl
  | cons a rest => simp [cappedIns, h]

theorem cappedIns_append (max : Nat) (l₁ l₂ acc : List Addr) :
    cappedIns max (l₁ ++ l₂) acc = cappedIns max l₂ (cappedIns max l₁ acc) := by
  induction l₁ generalizing acc with
  | nil => simp [cappedIns]
  | cons a rest ih =>
    by_cases h : acc.length < max
    · simp [cappedIns, h, ih]
    · simp [cappedIns, h, cappedIns_of_full h]

theorem cappedIns_eq_take {max : Nat} (l : List Addr) {acc : List Addr}
    (h : acc.length ≤ max) : cappedIns max l acc = (l.foldl insertSeen acc).take max := by
  induction l generalizing acc with
  | nil => simp [cappedIns, List.take_of_length_le h]
  | cons a rest ih =>
    by_cases hlt : acc.length < max
    · have hle : (insertSeen acc a).length ≤ max := by
        have := length_insertSeen_le acc a
        omega
      simp [cappedIns, hlt, ih hle]
    · have hacc : acc.length = max := by omega
      obtain ⟨t, ht⟩ := exists_foldl_insertSeen_append (a :: rest) acc
      rw [cappedIns_of_full hlt, ht, ← hacc, List.take_left]

/-! ### `getArgumentAuthors` as capped first-seen dedup -/

theorem authorsAddSide_eq_cappedIns (max : Nat) (args : List Argument) (acc : List Addr) :
    authorsAddSide max args acc = cappedIns max (args.map Argument.author) acc := by
  induction args generalizing acc with
  | nil => rfl
  | cons arg rest ih =>
    by_cases h : acc.length < max
    · by_cases hs : addrSeen acc arg.author
      · simp [authorsAddSide, cappedIns, h, hs, ih, insertSeen]
      · simp [authorsAddSide, cappedIns, h, hs, ih, insertSeen]
    · simp [authorsAddSide, cappedIns, h]

theorem authorsAddSide_of_full {max : Nat} {acc : List Addr} (h : ¬ acc.length < max)
    (args : List Argument) : authorsAddSide max args acc = acc := by
  rw [authorsAddSide_eq_cappedIns]
  exact cappedIns_of_full h _

theorem authorsLoop_eq_cappedIns (chain : Chain) (max : Nat) (ds : List Addr)
    (acc : List Addr) :
    authorsLoop chain max ds acc = cappedIns max (allAuthors chain ds) acc := by
  induction ds generalizing acc with
  | nil => rfl
  | cons d rest ih =>
    by_cases h : acc.length < max
    · rw [authorsLoop]
      simp only [h, if_true]
      rw [ih, authorsAddSide_eq_cappedIns, authorsAddSide_eq_cappedIns]
      show cappedIns max (allAuthors chain rest) _ = cappedIns max (allAuthors chain (d :: rest)) acc
      have : allAuthors chain (d :: rest) =
          ((chain d).argsA.map Argument.author ++ (chain d).argsB.map Argument.author)
            ++ allAuthors chain rest := by
        simp [allAuthors]
      rw [this, cappedIns_append, cappedIns_append]
    · rw [authorsLoop]
      simp only [h, if_false]
      rw [cappedIns_of_full h]

/-- Characterization: `getArgumentAuthors` is exactly the first `maxResults` entries of the
uncapped first-seen dedup of the full author scan sequence. -/
theorem getArgumentAuthors_eq_take (chain : Chain) (ds : List Addr) (max : Nat) :
    getArgumentAuthors chain ds max = (firstSeenDedup (allAuthors chain ds)).take max := by
  rw [getArgumentAuthors, authorsLoop_eq_cappedIns, firstSeenDedup]
  exact cappedIns_eq_take _ (by simp)

theorem nodup_getArgumentAuthors (chain : Chain) (ds : List Addr) (max : Nat) :
    (getArgumentAuthors chain ds max).Nodup := by
  rw [getArgumentAuthors_eq_take]
  exact List.Nodup.sublist (List.take_sublist _ _) (nodup_firstSeenDedup _)

/-! ### `getDebateCreators` as first-seen dedup -/

theorem creatorsLoop_eq_foldl (chain : Chain) (ds : List Addr) (acc : List Addr) :
    creatorsLoop chain ds acc = (ds.map (fun a => (chain a).creator)).foldl insertSeen acc := by
  induction ds generalizing acc with
  | nil => rfl
  | cons d rest ih =>
    rw [creatorsLoop]
    simp only [List.map_cons, List.foldl_cons]
    rw [ih]
    rfl

/-- Characterization: `getDebateCreators` is the first-seen dedup of the creator scan
sequence (one creator per input debate, input order). -/
theorem getDebateCreators_eq (chain : Chain) (ds : List Addr) :
    getDebateCreators chain ds = firstSeenDedup (ds.map (fun a => (chain a).creator)) := by
  rw [getDebateCreators, creatorsLoop_eq_foldl, firstSeenDedup]

/-! ### `getParticipantDetails`: the roster's address column coincides with
`getArgumentAuthors` -/

theorem partIdx_le (acc : List ParticipantInfo) (a : Addr) : partIdx acc a ≤ acc.length := by
  induction acc with
  | nil => simp [partIdx]
  | cons p rest ih =>
    by_cases h : p.participant = a
    · simp [partIdx, h]
    · simp only [partIdx, h, if_false, List.length_cons]
      omega

theorem partIdx_lt_length_of_mem {acc : List ParticipantInfo} {a : Addr}
    (h : a ∈ acc.map ParticipantInfo.participant) : partIdx acc a < acc.length := by
  induction acc with
  | nil => simp at h
  | cons p rest ih =>
    by_cases hp : p.participant = a
    · simp [partIdx, hp]
    · simp only [List.map_cons, List.mem_cons] at h
      rcases h with h | h
    
      · exact absurd h.symm hp
      · simp only [partIdx, hp, if_false, List.length_cons]
        exact Nat.succ_lt_succ (ih h)

theorem partIdx_eq_length_of_not_mem {acc : List ParticipantInfo} {a : Addr}
    (h : a ∉ acc.map ParticipantInfo.participant) : partIdx acc a = acc.length := by
  induction acc with
  | nil => simp [partIdx]
  | cons p rest ih =>
    simp only [List.map_cons, List.mem_cons, not_or] at h
    have hp : ¬ p.participant = a := fun hh => h.1 hh.symm
    simp only [partIdx, hp, if_false, List.length_cons]
    rw [ih h.2]

theorem map_participant_bumpAt (acc : List ParticipantInfo) (i : Nat) (amt : Nat) :
    (bumpAt acc i amt).map ParticipantInfo.participant =
      acc.map ParticipantInfo.participant := by
  induction acc generalizing i with
  | nil => rfl
  | cons p rest ih =>
    cases i with
    | zero => simp [bumpAt]
    | succ j => simp [bumpAt, ih]

theorem processArgs_of_full {max : Nat} {acc : List ParticipantInfo}
    (h : ¬ acc.length < max) (args : List Argument) : processArgs max args acc = acc := by
  cases args with
  | nil => rfl
  | cons arg rest => simp [processArgs, h]

theorem map_participant_processArgs (max : Nat) (args : List Argument)
    (acc : List ParticipantInfo) :
    (processArgs max args acc).map ParticipantInfo.participant =
      authorsAddSide max args (acc.map ParticipantInfo.participant) := by
  induction args generalizing acc with
  | nil => rfl
  | cons arg rest ih =>
    by_cases h : acc.length < max
    · by_cases hm : arg.author ∈ acc.map ParticipantInfo.participant
      · have hidx : partIdx acc arg.author ≠ acc.length :=
          Nat.ne_of_lt (partIdx_lt_length_of_mem hm)
        rw [processArgs]
        simp only [h, if_true, hidx, if_false]
        rw [ih, map_participant_bumpAt]
        rw [authorsAddSide]
        simp only [List.length_map, h, if_true]
        simp only [(addrSeen_iff _ _).mpr hm, if_true]
      · have hidx : partIdx acc arg.author = acc.length :=
          partIdx_eq_length_of_not_mem hm
        rw [processArgs]
        simp only [h, if_true, hidx, if_true]
        rw [ih, map_participant_bumpAt]
        rw [authorsAddSide]
        simp only [List.length_map, h, if_true]
        have hns : ¬ addrSeen (acc.map ParticipantInfo.participant) arg.author = true := by
          simp [hm]
        simp only [hns, if_false, Bool.false_eq_true]
        simp
    · rw [processArgs_of_full h]
      rw [authorsAddSide]
      have h' : ¬ (acc.map ParticipantInfo.participant).length < max := by
        simpa using h
      simp only [h', if_false]

theorem participantLoop_of_full (chain : Chain) {max : Nat} {acc : List ParticipantInfo}
    (h : ¬ acc.length < max) (ds : List Addr) : participantLoop chain max ds acc = acc := by
  induction ds with
  | nil => rfl
  | cons d rest ih =>
    rw [participantLoop]
    rw [processArgs_of_full h, processArgs_of_full h]
    exact ih

theorem map_participant_participantLoop (chain : Chain) (max : Nat) (ds : List Addr)
    (acc : List ParticipantInfo) :
    (participantLoop chain max ds acc).map ParticipantInfo.participant =
      authorsLoop chain max ds (acc.map ParticipantInfo.participant) := by
  induction ds generalizing acc with
  | nil => rfl
  | cons d rest ih =>
    by_cases h : acc.length < max
    · rw [participantLoop, authorsLoop]
      have h' : (acc.map ParticipantInfo.participant).length < max := by simpa using h
      simp only [h', if_true]
      rw [ih, map_participant_processArgs, map_participant_processArgs]
    · rw [participantLoop_of_full chain h]
      rw [authorsLoop]
      have h' : ¬ (acc.map ParticipantInfo.participant).length < max := by simpa using h
      simp only [h', if_false]

/-- The roster column of `getParticipantDetails` is exactly the output of
`getArgumentAuthors`: same admission rule, same order, same cap. -/
theorem map_participant_getParticipantDetails (chain : Chain) (ds : List Addr) (max : Nat) :
    (getParticipantDetails chain ds max).map ParticipantInfo.participant =
      getArgumentAuthors chain ds max := by
  rw [getParticipantDetails, getArgumentAuthors, map_participant_participantLoop]
  rfl

/-! ### Characterizing `getAggregateStats` -/

theorem aggAddAuthors_char (cap : Nat) (args : List Argument) :
    ∀ seen : List Addr, seen.length ≤ cap →
    aggAddAuthors cap args seen =
      if ((args.map Argument.author).foldl insertSeen seen).length ≤ cap
      then some ((args.map Argument.author).foldl insertSeen seen) else none := by
  induction args with
  | nil =>
    intro seen h
    simp [aggAddAuthors, h]
  | cons arg rest ih =>
    intro seen h
    by_cases hs : addrSeen seen arg.author
    · have hmem : arg.author ∈ seen := (addrSeen_iff _ _).mp hs
      rw [aggAddAuthors]
      simp only [hs, if_true, List.map_cons, List.foldl_cons, insertSeen_of_mem hmem]
      exact ih seen h
    · have hmem : arg.author ∉ seen := by
        intro hc
        exact hs ((addrSeen_iff _ _).mpr hc)
      have hins : insertSeen seen arg.author = seen ++ [arg.author] :=
        insertSeen_of_not_mem hmem
      by_cases hlt : seen.length < cap
      · have h2 : (seen ++ [arg.author]).length ≤ cap := by
          simp only [List.length_append, List.length_cons, List.length_nil]
          omega
        rw [aggAddAuthors]
        simp only [hs, if_false, hlt, if_true, List.map_cons, List.foldl_cons, hins,
          Bool.false_eq_true]
        exact ih _ h2
      · rw [aggAddAuthors]
        simp only [hs, if_false, hlt, Bool.false_eq_true]
        have hge : cap < (((arg :: rest).map Argument.author).foldl insertSeen seen).length := by
          have h1 : ((seen ++ [arg.author]).length : Nat) ≤
              ((rest.map Argument.author).foldl insertSeen (seen ++ [arg.author])).length :=
            length_le_foldl_insertSeen _ _
          simp only [List.map_cons, List.foldl_cons, hins]
          simp only [List.length_append, List.length_cons, List.length_nil] at h1
          omega
        simp only [Nat.not_le.mpr hge, if_false]

theorem aggLoop_char (chain : Chain) (cap : Nat) (ds : List Addr) :
    ∀ st : AggState, st.seen.length ≤ cap →
    aggLoop chain cap ds st =
      if ((allAuthors chain ds).foldl insertSeen st.seen).length ≤ cap
      then some ⟨st.totalVolume + volumeOf chain ds, st.totalBounties + bountiesOf chain ds,
                 st.totalArguments + argCountOf chain ds,
                 (allAuthors chain ds).foldl insertSeen st.seen⟩
      else none := by
  induction ds with
  | nil =>
    intro st h
    simp [aggLoop, allAuthors, volumeOf, bountiesOf, argCountOf, h]
  | cons d rest ih =>
    intro st h
    have hsplit : allAuthors chain (d :: rest) =
        ((chain d).argsA.map Argument.author ++ (chain d).argsB.map Argument.author)
          ++ allAuthors chain rest := by
      simp [allAuthors]
    rw [aggLoop]
    rw [aggAddAuthors_char cap _ _ h]
    by_cases c1 : (((chain d).argsA.map Argument.author).foldl insertSeen st.seen).length ≤ cap
    · simp only [c1, if_true]
      rw [aggAddAuthors_char cap _ _ c1]
      by_cases c2 : (((chain d).argsB.map Argument.author).foldl insertSeen
          (((chain d).argsA.map Argument.author).foldl insertSeen st.seen)).length ≤ cap
      · simp only [c2, if_true]
        rw [ih _ c2]
        rw [hsplit, List.foldl_append, List.foldl_append]
        have hv : st.totalVolume +
              ((chain d).totalLockedA + (chain d).totalUnlockedA +
                (chain d).totalLockedB + (chain d).totalUnlockedB) + volumeOf chain rest =
            st.totalVolume + volumeOf chain (d :: rest) := by
          simp [volumeOf]
          omega
        have hb : st.totalBounties + (chain d).totalBounty + bountiesOf chain rest =
            st.totalBounties + bountiesOf chain (d :: rest) := by
          simp [bountiesOf]
          omega
        have ha : st.totalArguments + ((chain d).argsA.length + (chain d).argsB.length) +
              argCountOf chain rest = st.totalArguments + argCountOf chain (d :: rest) := by
          simp [argCountOf]
          omega
        simp only [hv, hb, ha]
      · simp only [c2, if_false]
        have hge : ¬ ((allAuthors chain (d :: rest)).foldl insertSeen st.seen).length ≤ cap := by
          rw [hsplit, List.foldl_append, List.foldl_append]
          have := length_le_foldl_insertSeen (allAuthors chain rest)
            (((chain d).argsB.map Argument.author).foldl insertSeen
              (((chain d).argsA.map Argument.author).foldl insertSeen st.seen))
          omega
        simp only [hge, if_false]
    · simp only [c1, if_false]
      have hge : ¬ ((allAuthors chain (d :: rest)).foldl insertSeen st.seen).length ≤ cap := by
        rw [hsplit, List.foldl_append, List.foldl_append]
        have h1 := length_le_foldl_insertSeen ((chain d).argsB.map Argument.author)
          (((chain d).argsA.map Argument.author).foldl insertSeen st.seen)
        have h2 := length_le_foldl_insertSeen (allAuthors chain rest)
          (((chain d).argsB.map Argument.author).foldl insertSeen
            (((chain d).argsA.map Argument.author).foldl insertSeen st.seen))
        omega
      simp only [hge, if_false]

/-- Full characterization of `getAggregateStats`: it returns exactly when
the deduplicated author set fits the `debates.length * 20` buffer, and then
all four components are the scan sums. -/
theorem getAggregateStats_char (chain : Chain) (ds : List Addr) :
    getAggregateStats chain ds =
      if (firstSeenDedup (allAuthors chain ds)).length ≤ ds.length * 20
      then some ⟨volumeOf chain ds, bountiesOf chain ds, argCountOf chain ds,
                 (firstSeenDedup (allAuthors chain ds)).length⟩
      else none := by
  unfold getAggregateStats
  rw [aggLoop_char chain (ds.length * 20) ds ⟨0, 0, 0, []⟩ (by simp)]
  simp only [firstSeenDedup]
  by_cases c : ((allAuthors chain ds).foldl insertSeen []).length ≤ ds.length * 20
  · simp [c]
  · simp [c]

/-! ### Remaining glue lemmas -/

theorem take_append_of_le (l₁ l₂ : List Addr) (n : Nat) (h : n ≤ l₁.length) :
    (l₁ ++ l₂).take n = l₁.take n := by
  rw [List.take_append_eq_append_take, Nat.sub_eq_zero_of_le h, List.take_zero,
    List.append_nil]

theorem length_firstSeenDedup_le (l : List Addr) :
    (firstSeenDedup l).length ≤ l.length := by
  have := length_foldl_insertSeen_le l []
  simpa [firstSeenDedup] using this

theorem allAuthors_append (chain : Chain) (l₁ l₂ : List Addr) :
    allAuthors chain (l₁ ++ l₂) = allAuthors chain l₁ ++ allAuthors chain l₂ := by
  simp [allAuthors]

theorem firstSeenDedup_append_extend (l₁ l₂ : List Addr) :
    ∃ t, firstSeenDedup (l₁ ++ l₂) = firstSeenDedup l₁ ++ t := by
  rw [firstSeenDedup, List.foldl_append]
  exact exists_foldl_insertSeen_append l₂ _

theorem participantLoop_append (chain : Chain) (max : Nat) (l₁ l₂ : List Addr)
    (acc : List ParticipantInfo) :
    participantLoop chain max (l₁ ++ l₂) acc =
      participantLoop chain max l₂ (participantLoop chain max l₁ acc) := by
  induction l₁ generalizing acc with
  | nil => rfl
  | cons d rest ih =>
    rw [List.cons_append, participantLoop, participantLoop, ih]

theorem getDebateBasicInfoBatch_eq_map (chain : Chain) (ds : List Addr) :
    getDebateBasicInfoBatch chain ds = ds.map (getDebateBasicInfo chain) := by
  induction ds with
  | nil => rfl
  | cons a rest ih => rw [getDebateBasicInfoBatch, ih, List.map_cons]

theorem getBatchAgentStats_eq_map (factory : Factory) (agents : List Addr) :
    getBatchAgentStats factory agents = agents.map (mkAgentStats factory) := by
  induction agents with
  | nil => rfl
  | cons a rest ih => rw [getBatchAgentStats, ih, List.map_cons]

/-! ### The claims -/

/-- Claim C7: for every input address list, `getDebateBasicInfoBatch`
returns exactly one summary record per input address, in input order: the
output has the input's length and its `debateAddress` column is the input
list itself. -/
theorem claim_C7 (chain : Chain) (ds : List Addr) :
    (getDebateBasicInfoBatch chain ds).length = ds.length ∧
      (getDebateBasicInfoBatch chain ds).map DebateBasicInfo.debateAddress = ds := by
  constructor
  · rw [getDebateBasicInfoBatch_eq_map, List.length_map]
  · rw [getDebateBasicInfoBatch_eq_map, List.map_map]
    have hcomp : DebateBasicInfo.debateAddress ∘ getDebateBasicInfo chain = id := rfl
    rw [hcomp, List.map_id]

/-- Claim C8: every summary produced by `getDebateBasicInfoBatch` has
`totalSideA` equal to the sum of the underlying debate's locked-A and
unlocked-A sub-balances, and `totalSideB` equal to the sum of its locked-B
and unlocked-B sub-balances. -/
theorem claim_C8 (chain : Chain) (ds : List Addr) (info : DebateBasicInfo)
    (h : info ∈ getDebateBasicInfoBatch chain ds) :
    info.totalSideA = (chain info.debateAddress).totalLockedA +
        (chain info.debateAddress).totalUnlockedA ∧
      info.totalSideB = (chain info.debateAddress).totalLockedB +
        (chain info.debateAddress).totalUnlockedB := by
  rw [getDebateBasicInfoBatch_eq_map] at h
  obtain ⟨a, -, rfl⟩ := List.mem_map.mp h
  exact ⟨rfl, rfl⟩

/-- Witness for C8 at a concrete chain with distinct nonzero pool
sub-balances. -/
theorem claim_C8_witness :
    (⟨5, 12, 0, 0, 3, 7, 7, 2, 1⟩ : DebateBasicInfo).totalSideA =
        (chainPools 5).totalLockedA + (chainPools 5).totalUnlockedA ∧
      (⟨5, 12, 0, 0, 3, 7, 7, 2, 1⟩ : DebateBasicInfo).totalSideB =
        (chainPools 5).totalLockedB + (chainPools 5).totalUnlockedB :=
  claim_C8 chainPools [5] ⟨5, 12, 0, 0, 3, 7, 7, 2, 1⟩ (by decide)

/-- Claim C9: `getBatchAgentStats` returns one row per input address in
input order (each an independent factory lookup), its `agent` column is the
input list, and duplicate input addresses yield identical rows — no
de-duplication of any kind. -/
theorem claim_C9 (factory : Factory) (agents : List Addr) :
    getBatchAgentStats factory agents = agents.map (mkAgentStats factory) ∧
      (getBatchAgentStats factory agents).length = agents.length ∧
      (getBatchAgentStats factory agents).map AgentStats.agent = agents ∧
      ∀ i j : Nat, agents[i]? = agents[j]? →
        (getBatchAgentStats factory agents)[i]? = (getBatchAgentStats factory agents)[j]? := by
  refine ⟨getBatchAgentStats_eq_map factory agents, ?_, ?_, ?_⟩
  · rw [getBatchAgentStats_eq_map, List.length_map]
  · rw [getBatchAgentStats_eq_map, List.map_map]
    have hcomp : AgentStats.agent ∘ mkAgentStats factory = id := rfl
    rw [hcomp, List.map_id]
  · intro i j h
    rw [getBatchAgentStats_eq_map, List.getElem?_map, List.getElem?_map, h]

/-- Witness for C9: with duplicate input addresses (positions 0 and 2),
the corresponding output rows coincide. -/
theorem claim_C9_witness :
    (getBatchAgentStats factoryW [3, 4, 3])[0]? = (getBatchAgentStats factoryW [3, 4, 3])[2]? :=
  (claim_C9 factoryW [3, 4, 3]).2.2.2 0 2 (by decide)

/-- Claim C10: on the empty input list every batch operation returns its
empty or zero result, independently of the chain state (no debate read can
influence it): the four list-returning operations return `[]` and
`getAggregateStats` returns `(0, 0, 0, 0)`. -/
theorem claim_C10 (chain : Chain) (maxResults : Nat) :
    getDebateBasicInfoBatch chain [] = [] ∧
      getArgumentAuthors chain [] maxResults = [] ∧
      getParticipantDetails chain [] maxResults = [] ∧
      getDebateCreators chain [] = [] ∧
      getAggregateStats chain [] = some ⟨0, 0, 0, 0⟩ :=
  ⟨rfl, rfl, rfl, rfl, rfl⟩

/-- Claim C3: `getArgumentAuthors` terminates early — once `maxResults`
distinct authors are collected after some prefix of the debate list, any
suffix of further debates is irrelevant to the result (those debates are
never read); and in the spec's scenario `argumentAuthors([D1, D2], 1)`
where D1 side A's first argument is authored by `204` (0xCC..), the result
is exactly `[204]` for every D2. -/
theorem claim_C3 :
    (∀ (chain : Chain) (pre suf : List Addr) (maxResults : Nat),
        maxResults ≤ (getArgumentAuthors chain pre maxResults).length →
        getArgumentAuthors chain (pre ++ suf) maxResults =
          getArgumentAuthors chain pre maxResults) ∧
    (∀ (chain : Chain) (d1 d2 : Addr) (arg : Argument) (rest : List Argument),
        (chain d1).argsA = arg :: rest → arg.author = 204 →
        getArgumentAuthors chain [d1, d2] 1 = [204]) := by
  constructor
  · intro chain pre suf maxResults h
    rw [getArgumentAuthors_eq_take] at h
    rw [getArgumentAuthors_eq_take, getArgumentAuthors_eq_take]
    obtain ⟨t, ht⟩ := firstSeenDedup_append_extend (allAuthors chain pre) (allAuthors chain suf)
    rw [← allAuthors_append] at ht
    rw [ht]
    have hlen : maxResults ≤ (firstSeenDedup (allAuthors chain pre)).length := by
      rw [List.length_take] at h
      omega
    exact take_append_of_le _ _ _ hlen
  · intro chain d1 d2 arg rest hA hcc
    rw [getArgumentAuthors_eq_take]
    have hl : allAuthors chain [d1, d2] =
        arg.author :: ((rest ++ (chain d1).argsB).map Argument.author
          ++ allAuthors chain [d2]) := by
      show ((chain d1).argsA ++ (chain d1).argsB).map Argument.author
          ++ allAuthors chain [d2] = _
      rw [hA]
      simp
    rw [hl, hcc]
    have h1 : firstSeenDedup (204 :: ((rest ++ (chain d1).argsB).map Argument.author
          ++ allAuthors chain [d2])) =
        List.foldl insertSeen [204] ((rest ++ (chain d1).argsB).map Argument.author
          ++ allAuthors chain [d2]) := rfl
    rw [h1]
    obtain ⟨t, ht⟩ := exists_foldl_insertSeen_append
      ((rest ++ (chain d1).argsB).map Argument.author ++ allAuthors chain [d2]) [204]
    rw [ht, take_append_of_le _ _ _ (by simp)]
    rfl

/-- Witness for C3: at `chainCC`, the cap of 1 is reached after address 1,
so appending address 2 changes nothing; and the scenario instance returns
exactly `[204]`. -/
theorem claim_C3_witness :
    getArgumentAuthors chainCC ([1] ++ [2]) 1 = getArgumentAuthors chainCC [1] 1 ∧
      getArgumentAuthors chainCC [1, 2] 1 = [204] :=
  ⟨claim_C3.1 chainCC [1] [2] 1 (by decide),
   claim_C3.2 chainCC 1 2 (mkArg 204 1) [mkArg 7 1] (by decide) (by decide)⟩

/-- Claim C4: whenever `getAggregateStats` returns, its
`uniqueParticipants` component equals the number of distinct authors that
`getArgumentAuthors` emits on the same debate list with a cap `M` large
enough never to bind (any `M` at least the total argument count). -/
theorem claim_C4 (chain : Chain) (ds : List Addr) (st : AggregateStats) (M : Nat)
    (hres : getAggregateStats chain ds = some st) (hM : totalArgCount chain ds ≤ M) :
    st.uniqueParticipants = (getArgumentAuthors chain ds M).length := by
  rw [getAggregateStats_char] at hres
  by_cases c : (firstSeenDedup (allAuthors chain ds)).length ≤ ds.length * 20
  · rw [if_pos c] at hres
    obtain rfl := Option.some.inj hres
    rw [getArgumentAuthors_eq_take]
    have hle : (firstSeenDedup (allAuthors chain ds)).length ≤ M :=
      le_trans (length_firstSeenDedup_le _) hM
    rw [List.take_of_length_le hle]
  · rw [if_neg c] at hres
    exact absurd hres (by simp)

/-- Witness for C4 at `chainX` with one debate (3 arguments, 2 distinct
authors) and the over-generous cap 10. -/
theorem claim_C4_witness :
    (⟨0, 0, 3, 2⟩ : AggregateStats).uniqueParticipants =
      (getArgumentAuthors chainX [0] 10).length :=
  claim_C4 chainX [0] ⟨0, 0, 3, 2⟩ 10 (by decide) (by decide)

/-- Claim C5: each de-duplicating operation emits every address at most
once (`Nodup` outputs), in first-seen order under the scan order "debates
in input order, side A before side B, arguments in list order" (each output
is characterized as the capped first-seen dedup of its scan sequence, never
sorted), and the spec's `debateCreators` scenario holds: creators
`170, 187, 170` over three debates yield exactly `[170, 187]`. -/
theorem claim_C5 :
    (∀ (chain : Chain) (ds : List Addr) (maxResults : Nat),
        (getArgumentAuthors chain ds maxResults).Nodup) ∧
    (∀ (chain : Chain) (ds : List Addr) (maxResults : Nat),
        ((getParticipantDetails chain ds maxResults).map ParticipantInfo.participant).Nodup) ∧
    (∀ (chain : Chain) (ds : List Addr), (getDebateCreators chain ds).Nodup) ∧
    (∀ (chain : Chain) (ds : List Addr) (maxResults : Nat),
        getArgumentAuthors chain ds maxResults =
          (firstSeenDedup (allAuthors chain ds)).take maxResults) ∧
    (∀ (chain : Chain) (ds : List Addr) (maxResults : Nat),
        (getParticipantDetails chain ds maxResults).map ParticipantInfo.participant =
          getArgumentAuthors chain ds maxResults) ∧
    (∀ (chain : Chain) (ds : List Addr),
        getDebateCreators chain ds = firstSeenDedup (ds.map (fun a => (chain a).creator))) ∧
    (∀ (chain : Chain) (d1 d2 d3 : Addr),
        (chain d1).creator = 170 → (chain d2).creator = 187 → (chain d3).creator = 170 →
        getDebateCreators chain [d1, d2, d3] = [170, 187]) := by
  refine ⟨nodup_getArgumentAuthors, ?_, ?_, getArgumentAuthors_eq_take,
    map_participant_getParticipantDetails, getDebateCreators_eq, ?_⟩
  · intro chain ds maxResults
    rw [map_participant_getParticipantDetails]
    exact nodup_getArgumentAuthors chain ds maxResults
  · intro chain ds
    rw [getDebateCreators_eq]
    exact nodup_firstSeenDedup _
  · intro chain d1 d2 d3 h1 h2 h3
    rw [getDebateCreators_eq]
    simp only [List.map_cons, List.map_nil, h1, h2, h3]
    decide

/-- Witness for C5: the creators scenario at `chainCreators`. -/
theorem claim_C5_witness :
    getDebateCreators chainCreators [1, 2, 3] = [170, 187] :=
  claim_C5.2.2.2.2.2.2 chainCreators 1 2 3 (by decide) (by decide) (by decide)

/-- Claim C1 counterexample: the claim asserts that totals of
already-admitted participants keep accruing after the cap is hit, so with
`maxResults = 1` and side A `[170 staking 5, 170 staking 2]` participant
`170` should come out with count 2 and amount 7; the code instead stops all
processing once the roster is full and returns count 1, amount 5. -/
theorem claim_C1_counterexample :
    getParticipantDetails chainRepeat [0] 1 = [⟨170, 1, 5⟩] ∧
      getParticipantDetails chainRepeat [0] 1 ≠ [⟨170, 2, 7⟩] := by
  decide

/-- Claim C1 (amended): `getParticipantDetails` accrues counts and amounts
for already-admitted participants only while fewer than `maxResults`
distinct participants have been admitted; once the roster is full, all
further argument processing stops — `_processArgs` is the identity on a
full roster, and whole debates appended after the point where the roster
filled contribute nothing (not even accrual to existing rows).  Below
the cap, accrual across sides does happen (the concrete `chainX` run). -/
theorem claim_C1_amended :
    (∀ (maxResults : Nat) (args : List Argument) (acc : List ParticipantInfo),
        maxResults ≤ acc.length → processArgs maxResults args acc = acc) ∧
    (∀ (chain : Chain) (pre suf : List Addr) (maxResults : Nat),
        maxResults ≤ (getParticipantDetails chain pre maxResults).length →
        getParticipantDetails chain (pre ++ suf) maxResults =
          getParticipantDetails chain pre maxResults) ∧
    getParticipantDetails chainX [0] 3 = [⟨170, 2, 7⟩, ⟨187, 1, 3⟩] := by
  refine ⟨?_, ?_, by decide⟩
  · intro m args acc h
    exact processArgs_of_full (by omega) args
  · intro chain pre suf m h
    rw [getParticipantDetails, participantLoop_append]
    rw [show participantLoop chain m pre [] = getParticipantDetails chain pre m from rfl]
    exact participantLoop_of_full chain (by omega) suf

/-- Witness for C1 (amended): at a full roster (cap 1), an argument by the
already-admitted participant `170` bumps nothing; and appending debate 1
after the roster filled on debate 0 leaves the output untouched. -/
theorem claim_C1_amended_witness :
    processArgs 1 [mkArg 170 2] [⟨170, 1, 5⟩] = [⟨170, 1, 5⟩] ∧
      getParticipantDetails chainRepeat ([0] ++ [1]) 1 =
        getParticipantDetails chainRepeat [0] 1 :=
  ⟨claim_C1_amended.1 1 [mkArg 170 2] [⟨170, 1, 5⟩] (by decide),
   claim_C1_amended.2.1 chainRepeat [0] [1] 1 (by decide)⟩

/-- Claim C2 counterexample: with one debate carrying 21 distinct authors
(capacity `1 * 20`), `getAggregateStats` does not "complete and return
while merely ceasing to admit new entries" — it aborts (the unchecked
`seen[seenCount++]` write is out of bounds, a revert), modelled as
`none`. -/
theorem claim_C2_counterexample :
    getAggregateStats chain21 [0] = none ∧
      (firstSeenDedup (allAuthors chain21 [0])).length = 21 := by
  decide

/-- Claim C2 (amended): exceeding the `debates.length * 20` dedup buffer is
an error, not a truncation: `getAggregateStats` reverts (returns `none`)
exactly when the distinct-author count exceeds the buffer capacity, and
whenever it does return, every distinct author has been registered in
`uniqueParticipants` (no author silently fails to register). -/
theorem claim_C2_amended (chain : Chain) (ds : List Addr) :
    (getAggregateStats chain ds = none ↔
      ds.length * 20 < (firstSeenDedup (allAuthors chain ds)).length) ∧
    (∀ st : AggregateStats, getAggregateStats chain ds = some st →
      st.uniqueParticipants = (firstSeenDedup (allAuthors chain ds)).length) := by
  constructor
  · rw [getAggregateStats_char]
    by_cases c : (firstSeenDedup (allAuthors chain ds)).length ≤ ds.length * 20
    · rw [if_pos c]
      constructor
      · intro h
        exact absurd h (by simp)
      · intro h
        exact absurd h (by omega)
    · rw [if_neg c]
      constructor
      · intro _
        omega
      · intro _
        rfl
  · intro st h
    rw [getAggregateStats_char] at h
    by_cases c : (firstSeenDedup (allAuthors chain ds)).length ≤ ds.length * 20
    · rw [if_pos c] at h
      obtain rfl := Option.some.inj h
      rfl
    · rw [if_neg c] at h
      exact absurd h (by simp)

/-- Witness for C2 (amended): the registered-count clause at `chainX`
(3 arguments, 2 distinct authors, buffer capacity 20). -/
theorem claim_C2_amended_witness :
    (⟨0, 0, 3, 2⟩ : AggregateStats).uniqueParticipants =
      (firstSeenDedup (allAuthors chainX [0])).length :=
  (claim_C2_amended chainX [0]).2 ⟨0, 0, 3, 2⟩ (by decide)

/-- Claim C6 counterexample: in the spec's `DebateX` scenario the claim
demands `[{Alice, 2, 7}, {Bob, 1, 3}]` for every `maxResults ≥ 2`, but at
`maxResults = 2` the roster fills after side A and side B's Alice argument
is never processed: the code returns `[{Alice, 1, 5}, {Bob, 1, 3}]`. -/
theorem claim_C6_counterexample :
    getParticipantDetails chainX [0] 2 = [⟨170, 1, 5⟩, ⟨187, 1, 3⟩] ∧
      getParticipantDetails chainX [0] 2 ≠ [⟨170, 2, 7⟩, ⟨187, 1, 3⟩] := by
  decide

/-- Claim C6 (amended): with `maxResults` at least 3 (strictly more than
the number of distinct participants, so the roster never fills), the
`DebateX` scenario returns `[{Alice=170, count 2, amount 7},
{Bob=187, count 1, amount 3}]` in that order — per-participant counts and
amounts accumulate across both sides. -/
theorem claim_C6_amended (maxResults : Nat) (h : 3 ≤ maxResults) :
    getParticipantDetails chainX [0] maxResults = [⟨170, 2, 7⟩, ⟨187, 1, 3⟩] := by
  have h0 : 0 < maxResults := by omega
  have h1 : 1 < maxResults := by omega
  have h2 : 2 < maxResults := by omega
  simp [getParticipantDetails, participantLoop, processArgs, partIdx, bumpAt,
    chainX, debateX, mkArg, h0, h1, h2]

/-- Witness for C6 (amended) at `maxResults = 3`. -/
theorem claim_C6_witness :
    3 ≤ 3 ∧ getParticipantDetails chainX [0] 3 = [⟨170, 2, 7⟩, ⟨187, 1, 3⟩] :=
  ⟨by decide, claim_C6_amended 3 (by decide)⟩
